import Mathlib

/-
Verification of the kopia content-addressed storage engine spec against the
source. Shallow embedding of:
  repo/content/consistency_checks.go  (VerifyContentToPackMapping)
  internal/stats/count_map.go         (CountersMap)
  repo/maintenance/drop_deleted_contents.go
  repo/blob/gcs/gcs_storage.go        (GetBlob/PutBlob/DeleteBlob/translateError)
  repo/blob/filesystem (PutBlob sync contract; modelled from the spec)
  fs/entry.go                         (Entries.FindByName)
Machine integers (uint32 counters) are modelled as Nat with explicit
reduction modulo 2^32 where the Go code uses 32-bit arithmetic.
-/

namespace KopiaModel

/-! Association-list helpers shared by the models (functional maps). -/

/-- Lookup of the value stored at the first occurrence of a key. -/
def alookup {K V : Type} [DecidableEq K] : List (K × V) → K → Option V
  | [], _ => none
  | (k, v) :: rest, key => if k = key then some v else alookup rest key

/-- Replace the value at the first occurrence of a key; no-op when absent. -/
def aset {K V : Type} [DecidableEq K] : List (K × V) → K → V → List (K × V)
  | [], _, _ => []
  | (k, v) :: rest, key, nv =>
    if k = key then (k, nv) :: rest else (k, v) :: aset rest key nv

/-- Remove the first occurrence of a key. -/
def aremove {K V : Type} [DecidableEq K] : List (K × V) → K → List (K × V)
  | [], _ => []
  | (k, v) :: rest, key => if k = key then rest else (k, v) :: aremove rest key

/-- Modulus of the 32-bit unsigned counters used by the Go code. -/
def u32 : Nat := 2 ^ 32

/-! internal/stats/count_map.go -/

/-- CountersMap is a map from keys to uint32 counters (sync.Map storing
map of K to a pointer to uint32 in the source); modelled as an association
list whose values are the counter values reduced modulo 2^32. -/
abbrev CountersMap (K : Type) : Type := List (K × Nat)

/-- Add increases the counter for the key by v. The source loads the
existing cell (LoadOrStore of a fresh zero cell when absent) and then
performs an atomic 32-bit add; it returns true when the key already
existed, false when it was newly created. -/
def CountersMap.Add {K : Type} [DecidableEq K] (m : CountersMap K) (key : K) (v : Nat) :
    CountersMap K × Bool :=
  match alookup m key with
  | some c => (aset m key ((c + v) % u32), true)
  | none => (m ++ [(key, (0 + v) % u32)], false)

/-- Increment increases the counter for the key by 1. -/
def CountersMap.Increment {K : Type} [DecidableEq K] (m : CountersMap K) (key : K) :
    CountersMap K × Bool :=
  m.Add key 1

/-- Get returns the current counter value and whether the key is present;
absent keys read as (0, false). -/
def CountersMap.Get {K : Type} [DecidableEq K] (m : CountersMap K) (key : K) : Nat × Bool :=
  match alookup m key with
  | some c => (c, true)
  | none => (0, false)

/-- Sequential run of n Increment calls on the same key, returning the final
map and the list of wasPresent results in call order. -/
def incrementN {K : Type} [DecidableEq K] (m : CountersMap K) (key : K) :
    Nat → CountersMap K × List Bool
  | 0 => (m, [])
  | n + 1 =>
    match m.Increment key with
    | (m1, b) =>
      match incrementN m1 key n with
      | (m2, bs) => (m2, b :: bs)

/-! repo/content/consistency_checks.go -/

/-- Index entry (content.Info) restricted to the fields read by the
consistency check; deleted entries are iterated as well (the source passes
IterateOptions with IncludeDeleted true and the callback never filters on
the deleted flag). -/
structure Info where
  contentID : String
  packBlobID : String
  deleted : Bool := false
  deriving DecidableEq

/-- missingPackThreshold constant from consistency_checks.go. -/
def missingPackThreshold : Nat := 1000

/-- Accumulator of VerifyContentToPackMapping: the atomic uint32
missingPackCount and the CountersMap of per-missing-pack reference counts. -/
structure VState where
  missingPackCount : Nat
  missingPacks : CountersMap String
  deriving DecidableEq

/-- Initial accumulator (zero counter, empty map). -/
def initVState : VState := { missingPackCount := 0, missingPacks := [] }

/-- Body of the iteration callback cItCb: entries whose pack is present are
skipped; otherwise the per-pack counter is incremented, and when the pack is
new the unique-missing counter is bumped and compared against the threshold.
The Bool result is true when the callback returns errTooManyMissingPacks. -/
def cItCb (existingPacks : List String) (st : VState) (ci : Info) : VState × Bool :=
  if ci.packBlobID ∈ existingPacks then (st, false)
  else
    match st.missingPacks.Increment ci.packBlobID with
    | (m, true) => ({ st with missingPacks := m }, false)
    | (m, false) =>
      let c := (st.missingPackCount + 1) % u32
      ({ missingPackCount := c, missingPacks := m }, decide (c > missingPackThreshold))

/-- Sequential iteration over all index entries, stopping as soon as the
callback returns the errTooManyMissingPacks error. -/
def iterateContents (existingPacks : List String) : List Info → VState → VState × Bool
  | [], st => (st, false)
  | ci :: rest, st =>
    match cItCb existingPacks st ci with
    | (st1, true) => (st1, true)
    | (st1, false) => iterateContents existingPacks rest st1

/-- The numbers logged by verifyNoMissingPacks while ranging over the
counters map: the missing pack count and the dangling-content sum.
The Go accumulators are int (64-bit); they cannot overflow because at most
1001 packs are tracked, each with a counter below 2^32. -/
structure MissingReport where
  packCount : Nat
  danglingContentCount : Nat
  deriving DecidableEq

/-- Range over the counters map accumulating the report. -/
def rangeReport (m : CountersMap String) : MissingReport :=
  { packCount := m.length, danglingContentCount := (m.map Prod.snd).sum }

/-- verifyNoMissingPacks: nil when no missing pack was counted, otherwise
the errMissingPacks error together with the logged report. -/
def verifyNoMissingPacks (missingPackCount : Nat) (missingPacks : CountersMap String) :
    Option MissingReport :=
  if missingPackCount = 0 then none
  else some (rangeReport missingPacks)

/-- Result of VerifyContentToPackMapping: nil, errMissingPacks (with the
logged report), or a joined error containing errTooManyMissingPacks. -/
inductive VerifyOutcome where
  | ok
  | missingPacks (packCount danglingContentCount : Nat)
  | tooManyMissingPacks (packCount danglingContentCount : Nat)
  deriving DecidableEq

/-- VerifyContentToPackMapping over a given pack-blob set (built by
getPackSetFromStorage via listing) and the list of all index entries.
When iteration stops with errTooManyMissingPacks the source still calls
verifyNoMissingPacks and joins both errors; the joined error is modelled by
the tooManyMissingPacks constructor carrying the report. -/
def VerifyContentToPackMapping (existingPacks : List String) (entries : List Info) :
    VerifyOutcome :=
  match iterateContents existingPacks entries initVState with
  | (st, true) =>
    .tooManyMissingPacks (rangeReport st.missingPacks).packCount
      (rangeReport st.missingPacks).danglingContentCount
  | (st, false) =>
    match verifyNoMissingPacks st.missingPackCount st.missingPacks with
    | some r => .missingPacks r.packCount r.danglingContentCount
    | none => .ok

/-- The sequence of pack blob IDs referenced by dangling entries, in
iteration order (one occurrence per dangling index entry). -/
def missingSeq (existingPacks : List String) (entries : List Info) : List String :=
  (entries.filter (fun ci => decide (ci.packBlobID ∉ existingPacks))).map Info.packBlobID

/-- Relation between an iteration accumulator and the sequence of missing
pack IDs already processed: the counter equals the number of distinct
missing packs, and the map stores, for each distinct missing pack, its
reference count reduced modulo 2^32 (keys in some duplicate-free order). -/
def Models (st : VState) (seen : List String) : Prop :=
  st.missingPackCount = seen.toFinset.card ∧
  ∃ ks : List String, ks.Nodup ∧ (∀ k, k ∈ ks ↔ k ∈ seen) ∧
    st.missingPacks = ks.map (fun k => (k, seen.count k % u32))

/-- Sample dangling index entry used for concrete evaluations. -/
def ci0 : Info := { contentID := "c0", packBlobID := "p0" }

/-! repo/maintenance/drop_deleted_contents.go -/

/-- Time instants, abstracted (time.Time in the source). -/
abbrev Time : Type := Int

/-- indexblob.CompactOptions restricted to the fields set by maintenance. -/
structure CompactOptions where
  allIndexes : Bool := false
  dropDeletedBefore : Time := (0 : Int)
  disableEventualConsistencySafety : Bool := false

/-- Maintenance safety parameters; only the eventual-consistency flag is
read by dropDeletedContents. -/
structure SafetyParameters where
  disableEventualConsistencySafety : Bool

/-- The content manager as seen by maintenance: CompactIndexes transforms
the index state and returns stats of type A. -/
structure ContentManager (S A : Type) where
  compactIndexes : CompactOptions → S → S × A

/-- dropDeletedContents from drop_deleted_contents.go: logs (no state
effect, omitted) and delegates to the content manager's CompactIndexes with
AllIndexes true, the given DropDeletedBefore cutoff, and the safety flag. -/
def dropDeletedContents {S A : Type} (rep : ContentManager S A)
    (dropDeletedBefore : Time) (safety : SafetyParameters) (st : S) : S × A :=
  rep.compactIndexes
    { allIndexes := true
      dropDeletedBefore := dropDeletedBefore
      disableEventualConsistencySafety := safety.disableEventualConsistencySafety } st

/-- Follows the spec text: DropDeletedContents(dropDeletedBefore, safety)
just calls CompactIndexes with AllIndexes true, DropDeletedBefore equal to
the given time and the eventual-consistency safety flag from the safety
parameters, performing no index mutation of its own. -/
def dropDeletedContentsSpec {S A : Type} (rep : ContentManager S A)
    (dropDeletedBefore : Time) (safety : SafetyParameters) (st : S) : S × A :=
  rep.compactIndexes
    { allIndexes := true
      dropDeletedBefore := dropDeletedBefore
      disableEventualConsistencySafety := safety.disableEventualConsistencySafety } st

/-! repo/blob/gcs/gcs_storage.go -/

/-- Raw errors surfaced by the GCS client library: a googleapi error with an
HTTP status code, the object-not-exist sentinel, or anything else. -/
inductive GcsRawError where
  | googleapi (code : Nat)
  | objectNotExist
  | other (msg : String)
  deriving DecidableEq

/-- Typed blob-layer errors (package repo/blob) as produced by this
provider; unexpected wraps a raw error with the unexpected-GCS-error text. -/
inductive BlobError where
  | invalidRange
  | blobAlreadyExists
  | blobNotFound
  | parseVersion (v : String)
  | lengthMismatch
  | unexpected (e : GcsRawError)
  deriving DecidableEq

/-- http.StatusRequestedRangeNotSatisfiable. -/
def statusRequestedRangeNotSatisfiable : Nat := 416

/-- http.StatusPreconditionFailed. -/
def statusPreconditionFailed : Nat := 412

/-- translateError from gcs_storage.go: googleapi 416 maps to
ErrInvalidRange, googleapi 412 to ErrBlobAlreadyExists, object-not-exist to
ErrBlobNotFound, nil stays nil, anything else is wrapped as an unexpected
GCS error. -/
def translateError : Option GcsRawError → Option BlobError
  | none => none
  | some (.googleapi c) =>
    if c = statusRequestedRangeNotSatisfiable then some .invalidRange
    else if c = statusPreconditionFailed then some .blobAlreadyExists
    else some (.unexpected (.googleapi c))
  | some .objectNotExist => some .blobNotFound
  | some (.other msg) => some (.unexpected (.other msg))

/-- gcsclient.Conditions restricted to the DoesNotExist field set by
PutBlob; the zero value has doesNotExist false. -/
structure Conditions where
  doesNotExist : Bool
  deriving DecidableEq

/-- blob.PutOptions fields read by the GCS PutBlob. -/
structure PutOptions where
  doNotRecreate : Bool := false
  retentionPeriod : Nat := 0

/-- A GCS bucket: a functional map from object names to byte payloads. -/
abbrev GcsStore : Type := List (String × List Nat)

/-- Environment model of the GCS service commit (writer Close): with a
DoesNotExist precondition attached and the object already present, the
service answers HTTP 412 precondition-failed and leaves the bucket
unchanged; otherwise the upload is committed. -/
def gcsCommitUpload (store : GcsStore) (name : String) (conds : Option Conditions)
    (data : List Nat) : Except GcsRawError GcsStore :=
  match conds with
  | some c =>
    if c.doesNotExist ∧ (alookup store name).isSome then
      .error (.googleapi statusPreconditionFailed)
    else .ok (match alookup store name with
      | some _ => aset store name data
      | none => store ++ [(name, data)])
  | none => .ok (match alookup store name with
    | some _ => aset store name data
    | none => store ++ [(name, data)])

/-- PutBlob from gcs_storage.go: builds Conditions from DoNotRecreate and
attaches them only when different from the zero Conditions value, then
commits the upload; a commit error is passed through translateError and the
bucket is left unchanged. The byte copy into the writer is in-memory here
and cannot fail. -/
def gcsPutBlob (store : GcsStore) (pre b : String) (data : List Nat)
    (opts : PutOptions) : GcsStore × Option BlobError :=
  let name := pre ++ b
  let conds : Conditions := { doesNotExist := opts.doNotRecreate }
  let attached : Option Conditions :=
    if conds ≠ { doesNotExist := false } then some conds else none
  match gcsCommitUpload store name attached data with
  | .error e => (store, translateError (some e))
  | .ok st1 => (st1, none)

/-- Environment model of the GCS object delete: deleting an absent object
reports the object-not-exist sentinel. -/
def gcsObjectDelete (store : GcsStore) (name : String) :
    GcsStore × Option GcsRawError :=
  match alookup store name with
  | some _ => (aremove store name, none)
  | none => (store, some .objectNotExist)

/-- Error post-processing of DeleteBlob from gcs_storage.go: the raw delete
error goes through translateError and ErrBlobNotFound is folded into
success; every other translated error is returned. -/
def gcsDeleteBlobResult (raw : Option GcsRawError) : Option BlobError :=
  let err := translateError raw
  if err = some .blobNotFound then none else err

/-- DeleteBlob from gcs_storage.go against the bucket model. -/
def gcsDeleteBlob (store : GcsStore) (pre b : String) : GcsStore × Option BlobError :=
  match gcsObjectDelete store (pre ++ b) with
  | (st1, raw) => (st1, gcsDeleteBlobResult raw)

/-- One range-read request issued to the GCS service. -/
structure ReadCall where
  name : String
  generation : Option Int
  offset : Int
  length : Int
  deriving DecidableEq

/-- Modelled from the spec: blob.EnsureLengthExactly (repo/blob helper not
under src) succeeds when the requested length is negative (read-all) or the
produced length matches the request, and fails otherwise. -/
def ensureLengthExactly (gotLength length : Int) : Option BlobError :=
  if length < 0 then none
  else if gotLength = length then none
  else some .lengthMismatch

/-- getBlobWithVersion from gcs_storage.go: a negative offset returns
ErrInvalidRange before anything else; otherwise the version string is
parsed into a generation when non-empty, one range read is issued, errors
go through translateError, the bytes are appended to the output buffer and
the resulting length is checked. Returns the list of service calls made,
the final output buffer, and the error. -/
def getBlobWithVersion (reader : ReadCall → Except GcsRawError (List Nat))
    (pre b version : String) (offset length : Int) (output : List Nat) :
    List ReadCall × List Nat × Option BlobError :=
  if offset < 0 then ([], output, some .invalidRange)
  else
    let gen? : Except BlobError (Option Int) :=
      if version = "" then .ok none
      else match version.toInt? with
        | some g => .ok (some g)
        | none => .error (.parseVersion version)
    match gen? with
    | .error e => ([], output, some e)
    | .ok gen =>
      let call : ReadCall :=
        { name := pre ++ b, generation := gen, offset := offset, length := length }
      match reader call with
      | .error e => ([call], output, translateError (some e))
      | .ok bytes =>
        let out2 := output ++ bytes
        ([call], out2, ensureLengthExactly (Int.ofNat out2.length) length)

/-! repo/blob/filesystem PutBlob sync contract -/

/-- Directory contents of the file-backed provider: a functional map from
file names to byte payloads. -/
structure FsState where
  files : List (String × List Nat)

/-- Modelled from the spec: the file-backed provider PutBlob (its
implementation file is not under src; only its test is). Writes go to a
temp file in the target directory, then fsync, close, and rename over the
final name; a failing fsync aborts with an error wrapping the sync failure
and removes the temp file, so no output under the final name appears. The
error message carries the sync-failure phrase asserted (via its sync
substring) by TestPutBlob_FailsOnSyncError. -/
def fsPutBlob (st : FsState) (b : String) (data : List Nat) (syncFails : Bool) :
    FsState × Option String :=
  let tempName := b ++ ".tmp"
  let written : FsState := { files := st.files ++ [(tempName, data)] }
  if syncFails then
    ({ files := aremove written.files tempName }, some "cannot sync temporary file data")
  else
    ({ files := aremove written.files tempName ++ [(b, data)] }, none)

/-- Modelled from the spec: GetMetadata of the file-backed provider returns
the blob length, or the NotFound error for an absent blob. -/
def fsGetMetadata (st : FsState) (b : String) : Except String Nat :=
  match alookup st.files b with
  | some d => .ok d.length
  | none => .error "blob not found"

/-! fs/entry.go -/

/-- Entry names: Go strings compare byte-wise, so names are modelled as
byte sequences ordered lexicographically. -/
abbrev Name : Type := List Nat

/-- Filesystem entry restricted to the Name capability consumed by
FindByName (the Go Entry is an interface; only Name is read here). -/
structure Entry where
  name : Name
  size : Int := 0
  deriving DecidableEq

/-- sort.Search from the Go standard library, as used by FindByName: binary
search for the smallest index in [i, j) at which f holds, returning j when
there is none. The loop is embedded with a fuel argument; the interval
shrinks strictly at every iteration, so any fuel of at least j - i computes
the loop's result (proved below). -/
def sortSearchAux (f : Nat → Bool) : Nat → Nat → Nat → Nat
  | 0, i, _ => i
  | fuel + 1, i, j =>
    if i < j then
      if f ((i + j) / 2) then sortSearchAux f fuel i ((i + j) / 2)
      else sortSearchAux f fuel ((i + j) / 2 + 1) j
    else i

/-- sort.Search(n, f): the loop runs on [0, n), so n is enough fuel. -/
def sortSearch (n : Nat) (f : Nat → Bool) : Nat := sortSearchAux f n 0 n

/-- Name of the entry at an index; out-of-range indexes (never consulted by
the search) read as the searched-for name. -/
def nameAt (e : List Entry) (n : Name) (k : Nat) : Name :=
  match e.get? k with
  | some ent => ent.name
  | none => n

/-- Entries.FindByName from fs/entry.go: binary search for the first entry
whose name is at least n, returning it when its name equals n and nil
otherwise. -/
def FindByName (e : List Entry) (n : Name) : Option Entry :=
  match e.get? (sortSearch e.length (fun k => decide (n ≤ nameAt e n k))) with
  | some ent => if ent.name = n then some ent else none
  | none => none

/-- Ascending order by entry name, the precondition of FindByName. -/
abbrev SortedByName (e : List Entry) : Prop :=
  List.Pairwise (fun a b => a.name ≤ b.name) e

/-! Helper lemmas about the association-list primitives. -/

theorem alookup_append {K V : Type} [DecidableEq K] (m1 m2 : List (K × V)) (key : K) :
    alookup (m1 ++ m2) key =
      match alookup m1 key with
      | some v => some v
      | none => alookup m2 key := by
  induction m1 with
  | nil => simp [alookup]
  | cons p rest ih =>
    obtain ⟨k, v⟩ := p
    by_cases h : k = key <;> simp [alookup, h, ih]

theorem alookup_aset_self {K V : Type} [DecidableEq K] (m : List (K × V)) (key : K) (v : V)
    (h : (alookup m key).isSome) : alookup (aset m key v) key = some v := by
  induction m with
  | nil => simp [alookup] at h
  | cons p rest ih =>
    obtain ⟨k, w⟩ := p
    by_cases hk : k = key
    · subst hk; simp [alookup, aset]
    · simp [alookup, aset, hk] at h ⊢
      exact ih h

theorem alookup_aremove_ne {K V : Type} [DecidableEq K] (m : List (K × V)) (key key' : K)
    (h : key' ≠ key) : alookup (aremove m key) key' = alookup m key' := by
  induction m with
  | nil => simp [aremove]
  | cons p rest ih =>
    obtain ⟨k, v⟩ := p
    by_cases hk : k = key
    · subst hk
      have hk2 : k ≠ key' := fun hh => h hh.symm
      simp [aremove, alookup, hk2]
    · simp [aremove, alookup, hk, ih]

theorem alookup_keyed {K V : Type} [DecidableEq K] (ks : List K) (g : K → V) (p : K) :
    alookup (ks.map (fun k => (k, g k))) p = if p ∈ ks then some (g p) else none := by
  induction ks with
  | nil => simp [alookup]
  | cons a rest ih =>
    by_cases h : a = p
    · subst h; simp [alookup]
    · simp [alookup, h, ih, Ne.symm h]

theorem aset_keyed {K V : Type} [DecidableEq K] (ks : List K) (g : K → V) (p : K) (v : V)
    (hnd : ks.Nodup) :
    aset (ks.map (fun k => (k, g k))) p v =
      ks.map (fun k => (k, if k = p then v else g k)) := by
  induction ks with
  | nil => simp [aset]
  | cons a rest ih =>
    rcases List.nodup_cons.mp hnd with ⟨ha, hrest⟩
    by_cases h : a = p
    · subst h
      have hmap : rest.map (fun k => (k, if k = a then v else g k)) =
          rest.map (fun k => (k, g k)) :=
        List.map_congr_left fun k hk => by
          have hne : k ≠ a := fun hh => ha (hh ▸ hk)
          simp [hne]
      simp [aset, hmap]
    · simp [aset, h, ih hrest]

/-- The concrete value of the 32-bit modulus. -/
theorem u32_eq : u32 = 4294967296 := by norm_num [u32]

/-! Iterated Increment on a single key (claim C4). -/

theorem incrementN_present {K : Type} [DecidableEq K] (key : K) :
    ∀ (n : Nat) (m : CountersMap K) (c : Nat), alookup m key = some c → c < u32 →
      ∃ m2, incrementN m key n = (m2, List.replicate n true) ∧
        alookup m2 key = some ((c + n) % u32) := by
  intro n
  induction n with
  | zero =>
    intro m c h hc
    exact ⟨m, by simp [incrementN], by simpa [Nat.mod_eq_of_lt hc] using h⟩
  | succ n ih =>
    intro m c h hc
    have hsome : (alookup m key).isSome := by simp [h]
    have hstep : m.Increment key = (aset m key ((c + 1) % u32), true) := by
      simp [CountersMap.Increment, CountersMap.Add, h]
    have hlook : alookup (aset m key ((c + 1) % u32)) key = some ((c + 1) % u32) :=
      alookup_aset_self m key _ hsome
    obtain ⟨m2, h1, h2⟩ := ih (aset m key ((c + 1) % u32)) ((c + 1) % u32) hlook
      (Nat.mod_lt _ (by rw [u32_eq]; omega))
    refine ⟨m2, ?_, ?_⟩
    · simp [incrementN, hstep, h1, List.replicate_succ]
    · rw [h2, Nat.mod_add_mod]
      have harg : c + 1 + n = c + (n + 1) := by omega
      rw [harg]

theorem incrementN_fresh {K : Type} [DecidableEq K] (key : K) (m : CountersMap K) (n : Nat)
    (h : alookup m key = none) (hn : 1 ≤ n) :
    ∃ m2, incrementN m key n = (m2, false :: List.replicate (n - 1) true) ∧
      alookup m2 key = some (n % u32) := by
  obtain ⟨n', rfl⟩ : ∃ n', n = n' + 1 := ⟨n - 1, by omega⟩
  have hstep : m.Increment key = (m ++ [(key, (0 + 1) % u32)], false) := by
    simp [CountersMap.Increment, CountersMap.Add, h]
  have hone : ((0 : Nat) + 1) % u32 = 1 := by rw [u32_eq]
  have hlook : alookup (m ++ [(key, (0 + 1) % u32)]) key = some 1 := by
    rw [alookup_append, h, hone]
    simp [alookup]
  obtain ⟨m2, h1, h2⟩ := incrementN_present key n' (m ++ [(key, (0 + 1) % u32)]) 1 hlook
    (by rw [u32_eq]; omega)
  refine ⟨m2, ?_, ?_⟩
  · simp [incrementN, hstep, h1]
  · rw [h2, Nat.add_comm 1 n']

/-- C4 amended: on a CountersMap where the key is absent, a sequence of n
Increment calls (n at least 1) returns wasPresent false exactly from the
first call and true from every later call, and a subsequent Get returns the
total number of increments reduced modulo 2^32 (the counter is 32-bit),
together with present true. -/
theorem claim_C4 {K : Type} [DecidableEq K] (m : CountersMap K) (key : K) (n : Nat)
    (hfresh : alookup m key = none) (hn : 1 ≤ n) :
    ∃ m2, incrementN m key n = (m2, false :: List.replicate (n - 1) true) ∧
      m2.Get key = (n % u32, true) := by
  obtain ⟨m2, h1, h2⟩ := incrementN_fresh key m n hfresh hn
  exact ⟨m2, h1, by simp [CountersMap.Get, h2]⟩

/-- C4 witness: three increments of a fresh key report presence false,
true, true and Get returns (3, true). -/
theorem claim_C4_witness :
    ∃ m2, incrementN ([] : CountersMap String) ("k") 3 = (m2, false :: List.replicate 2 true) ∧
      m2.Get ("k") = (3 % u32, true) :=
  claim_C4 ([] : CountersMap String) ("k") 3 rfl (by omega)

/-- C4 counterexample: after 2^32 increments of a fresh key the 32-bit
counter has wrapped, so Get returns (0, true) instead of the claimed total
sum (2^32, true). -/
theorem claim_C4_counterexample :
    (incrementN ([] : CountersMap String) ("k") u32).1.Get ("k") = (0, true) ∧
      (0 : Nat) ≠ u32 := by
  obtain ⟨m2, h1, h2⟩ := incrementN_fresh ("k") ([] : CountersMap String) u32 rfl
    (by rw [u32_eq]; omega)
  constructor
  · rw [h1]
    simp [CountersMap.Get, h2, Nat.mod_self]
  · rw [u32_eq]; omega

/-! Filesystem PutBlob sync-failure contract (claim C5). -/

/-- A file name never collides with its temp name. -/
theorem tempName_ne (b : String) : b ≠ b ++ ".tmp" := by
  intro h
  have hlen := congrArg String.length h
  rw [String.length_append] at hlen
  have h4 : (".tmp" : String).length = 4 := rfl
  omega

/-- Unfolding equation for fsGetMetadata. -/
theorem fsGetMetadata_eq (st : FsState) (b : String) :
    fsGetMetadata st b =
      match alookup st.files b with
      | some d => .ok d.length
      | none => .error "blob not found" := rfl

/-- C5: when the sync step of the file-backed provider fails during
PutBlob, PutBlob returns an error whose message contains sync and the blob
under the final name does not exist afterwards: GetMetadata on that blob ID
reports it as not found. -/
theorem claim_C5 (st : FsState) (b : String) (data : List Nat)
    (habs : alookup st.files b = none) :
    ∃ st1 msg, fsPutBlob st b data true = (st1, some msg) ∧
      (∃ p q, msg = p ++ "sync" ++ q) ∧
      fsGetMetadata st1 b = .error "blob not found" := by
  refine ⟨{ files := aremove (st.files ++ [(b ++ ".tmp", data)]) (b ++ ".tmp") },
    "cannot sync temporary file data", rfl, ⟨"cannot ", " temporary file data", rfl⟩, ?_⟩
  have hne : b ≠ b ++ ".tmp" := tempName_ne b
  have h1 : alookup (aremove (st.files ++ [(b ++ ".tmp", data)]) (b ++ ".tmp")) b =
      alookup (st.files ++ [(b ++ ".tmp", data)]) b :=
    alookup_aremove_ne _ _ _ hne
  have h2 : alookup (st.files ++ [(b ++ ".tmp", data)]) b = none := by
    rw [alookup_append, habs]
    simp [alookup, Ne.symm hne]
  rw [fsGetMetadata_eq, h1, h2]

/-- C5 witness: a fresh store, sync failure injected; the error message
contains sync and metadata lookup reports not-found. -/
theorem claim_C5_witness :
    ∃ st1 msg, fsPutBlob { files := [] } ("blob-sync-fail") [7] true = (st1, some msg) ∧
      (∃ p q, msg = p ++ "sync" ++ q) ∧
      fsGetMetadata st1 ("blob-sync-fail") = .error "blob not found" :=
  claim_C5 { files := [] } ("blob-sync-fail") [7] rfl

/-! Maintenance dropDeletedContents (claim C6). -/

/-- C6: dropDeletedContents returns exactly the result of the content
manager CompactIndexes called with AllIndexes true, DropDeletedBefore equal
to the given time and DisableEventualConsistencySafety taken from the
safety parameters, threading the index state through that single call and
performing no other index mutation of its own. -/
theorem claim_C6 {S A : Type} (rep : ContentManager S A) (dropDeletedBefore : Time)
    (safety : SafetyParameters) (st : S) :
    dropDeletedContents rep dropDeletedBefore safety st =
      dropDeletedContentsSpec rep dropDeletedBefore safety st := rfl

/-! GCS provider (claims C7, C8, C9). -/

/-- C7: PutBlob with doNotRecreate set against an existing blob attaches
the does-not-exist precondition, the precondition-failed response is
translated to the AlreadyExists error, and the bucket is left unchanged
(the existing blob is not overwritten). -/
theorem claim_C7 (store : GcsStore) (pre b : String) (data : List Nat)
    (opts : PutOptions) (hd : opts.doNotRecreate = true)
    (hex : (alookup store (pre ++ b)).isSome = true) :
    gcsPutBlob store pre b data opts = (store, some .blobAlreadyExists) := by
  have hcond : ({ doesNotExist := opts.doNotRecreate } : Conditions) ≠
      { doesNotExist := false } := by
    simp [hd]
  have hcommit : gcsCommitUpload store (pre ++ b)
      (some { doesNotExist := opts.doNotRecreate }) data =
      .error (.googleapi statusPreconditionFailed) := by
    simp [gcsCommitUpload, hd, hex]
  have htrans : translateError (some (.googleapi statusPreconditionFailed)) =
      some .blobAlreadyExists := by
    simp [translateError, statusPreconditionFailed, statusRequestedRangeNotSatisfiable]
  simp [gcsPutBlob, hcond, hcommit, htrans]

/-- C7 witness: overwriting an existing object with doNotRecreate fails
with AlreadyExists and does not change the bucket. -/
theorem claim_C7_witness :
    gcsPutBlob [("p" ++ "X", [1])] ("p") ("X") [2] { doNotRecreate := true } =
      ([("p" ++ "X", [1])], some .blobAlreadyExists) :=
  claim_C7 [("p" ++ "X", [1])] ("p") ("X") [2] { doNotRecreate := true } rfl (by decide)

/-- C8: DeleteBlob folds the not-found report from the underlying store
into success, and surfaces every other (translated) error from the
underlying delete to the caller. -/
theorem claim_C8 (raw : Option GcsRawError) :
    (raw = some .objectNotExist → gcsDeleteBlobResult raw = none) ∧
    (gcsDeleteBlobResult raw = none ↔
      (translateError raw = none ∨ translateError raw = some .blobNotFound)) ∧
    (∀ e, translateError raw = some e → e ≠ .blobNotFound →
      gcsDeleteBlobResult raw = some e) := by
  refine ⟨?_, ?_, ?_⟩
  · intro h
    subst h
    simp [gcsDeleteBlobResult, translateError]
  · constructor
    · intro h
      by_cases hb : translateError raw = some .blobNotFound
      · exact Or.inr hb
      · left
        simpa [gcsDeleteBlobResult, hb] using h
    · intro h
      rcases h with h | h <;> simp [gcsDeleteBlobResult, h]
  · intro e he hne
    have hb : translateError raw ≠ some BlobError.blobNotFound := by
      rw [he]
      intro hh
      exact hne (Option.some_injective _ hh)
    simp [gcsDeleteBlobResult, hb, he, hne]

/-- C8 witness: a not-found delete succeeds; an unexpected raw error is
surfaced unchanged after translation. -/
theorem claim_C8_witness :
    gcsDeleteBlobResult (some .objectNotExist) = none ∧
    gcsDeleteBlobResult (some (.other "boom")) =
      some (.unexpected (.other "boom")) :=
  ⟨(claim_C8 (some .objectNotExist)).1 rfl,
   (claim_C8 (some (.other "boom"))).2.2 (.unexpected (.other "boom")) rfl (by decide)⟩

/-- C9: GetBlob with a negative offset returns the InvalidRange error
immediately: no request is issued to the store and the output buffer is
unchanged. -/
theorem claim_C9 (reader : ReadCall → Except GcsRawError (List Nat))
    (pre b version : String) (offset length : Int) (output : List Nat)
    (hneg : offset < 0) :
    getBlobWithVersion reader pre b version offset length output =
      ([], output, some .invalidRange) := by
  simp [getBlobWithVersion, hneg]

/-- C9 witness: a read at offset -1 fails with InvalidRange, issues no
request and leaves the buffer as provided. -/
theorem claim_C9_witness :
    getBlobWithVersion (fun _ => .error .objectNotExist) ("p") ("X") ("") (-1) 10 [9] =
      ([], [9], some .invalidRange) :=
  claim_C9 (fun _ => .error .objectNotExist) ("p") ("X") ("") (-1) 10 [9] (by norm_num)

/-! Binary search correctness (claim C10). -/

/-- sortSearchAux with enough fuel and a monotone predicate returns a point
of [i, j] below which the predicate is everywhere false on [i, j) and from
which it is everywhere true on [i, j). -/
theorem sortSearchAux_spec (f : Nat → Bool)
    (hmono : ∀ k l, k ≤ l → f k = true → f l = true) :
    ∀ (fuel i j : Nat), j - i ≤ fuel → i ≤ j →
      i ≤ sortSearchAux f fuel i j ∧ sortSearchAux f fuel i j ≤ j ∧
      (∀ k, i ≤ k → k < sortSearchAux f fuel i j → f k = false) ∧
      (∀ k, sortSearchAux f fuel i j ≤ k → k < j → f k = true) := by
  intro fuel
  induction fuel with
  | zero =>
    intro i j h1 h2
    refine ⟨Nat.le_refl i, h2, ?_, ?_⟩
    · intro k hk1 hk2
      exfalso
      simp [sortSearchAux] at hk2
      omega
    · intro k hk1 hk2
      exfalso
      simp [sortSearchAux] at hk1
      omega
  | succ fuel ih =>
    intro i j h1 h2
    by_cases hij : i < j
    · by_cases hf : f ((i + j) / 2) = true
      · have hrw : sortSearchAux f (fuel + 1) i j = sortSearchAux f fuel i ((i + j) / 2) := by
          simp [sortSearchAux, hij, hf]
        obtain ⟨g1, g2, g3, g4⟩ := ih i ((i + j) / 2) (by omega) (by omega)
        rw [hrw]
        refine ⟨g1, by omega, g3, ?_⟩
        intro k hk1 hk2
        by_cases hkm : k < (i + j) / 2
        · exact g4 k hk1 hkm
        · exact hmono ((i + j) / 2) k (by omega) hf
      · have hrw : sortSearchAux f (fuel + 1) i j = sortSearchAux f fuel ((i + j) / 2 + 1) j := by
          simp [sortSearchAux, hij, hf]
        obtain ⟨g1, g2, g3, g4⟩ := ih ((i + j) / 2 + 1) j (by omega) (by omega)
        rw [hrw]
        refine ⟨by omega, g2, ?_, g4⟩
        intro k hk1 hk2
        by_cases hkm : (i + j) / 2 + 1 ≤ k
        · exact g3 k hkm hk2
        · cases hfk : f k with
          | false => rfl
          | true =>
            exfalso
            exact hf (hmono k ((i + j) / 2) (by omega) hfk)
    · have hrw : sortSearchAux f (fuel + 1) i j = i := by
        simp [sortSearchAux, hij]
      rw [hrw]
      refine ⟨Nat.le_refl i, h2, ?_, ?_⟩
      · intro k hk1 hk2
        exfalso
        omega
      · intro k hk1 hk2
        exfalso
        omega

/-- nameAt at an in-range index is that entry name. -/
theorem nameAt_of_get (e : List Entry) (n : Name) (k : Nat) (h : k < e.length) :
    nameAt e n k = (e.get ⟨k, h⟩).name := by
  simp [nameAt, List.getElem?_eq_getElem h]

/-- nameAt at an out-of-range index is the searched-for name. -/
theorem nameAt_of_ge (e : List Entry) (n : Name) (k : Nat) (h : e.length ≤ k) :
    nameAt e n k = n := by
  simp [nameAt, List.getElem?_eq_none h]

/-- The search predicate of FindByName is monotone on a name-sorted list. -/
theorem findPred_mono (e : List Entry) (n : Name) (hs : SortedByName e) :
    ∀ k l, k ≤ l → decide (n ≤ nameAt e n k) = true → decide (n ≤ nameAt e n l) = true := by
  intro k l hkl hk
  rw [decide_eq_true_iff] at hk ⊢
  by_cases hllen : l < e.length
  · have hklen : k < e.length := lt_of_le_of_lt hkl hllen
    rw [nameAt_of_get e n k hklen] at hk
    rw [nameAt_of_get e n l hllen]
    rcases Nat.eq_or_lt_of_le hkl with heq | hlt
    · subst heq
      exact hk
    · exact le_trans hk (List.pairwise_iff_get.mp hs ⟨k, hklen⟩ ⟨l, hllen⟩ hlt)
  · rw [nameAt_of_ge e n l (by omega)]

/-- C10: on a list of entries sorted in ascending order by name,
FindByName returns an entry whose name equals the searched name whenever
one exists, and returns nil when no entry has that name. -/
theorem claim_C10 (e : List Entry) (n : Name) (hs : SortedByName e) :
    ((∃ ent, ent ∈ e ∧ ent.name = n) →
      ∃ ent, FindByName e n = some ent ∧ ent.name = n) ∧
    ((∀ ent, ent ∈ e → ent.name ≠ n) → FindByName e n = none) := by
  obtain ⟨h1, h2, h3, h4⟩ := sortSearchAux_spec (fun k => decide (n ≤ nameAt e n k))
    (findPred_mono e n hs) e.length 0 e.length (by omega) (Nat.zero_le _)
  have hfind : FindByName e n =
      (match e.get? (sortSearchAux (fun k => decide (n ≤ nameAt e n k)) e.length 0 e.length) with
       | some ent => if ent.name = n then some ent else none
       | none => none) := rfl
  set r := sortSearchAux (fun k => decide (n ≤ nameAt e n k)) e.length 0 e.length with hrdef
  constructor
  · rintro ⟨ent, hmem, hname⟩
    obtain ⟨⟨t, htlen⟩, hget⟩ := List.mem_iff_get.mp hmem
    have hft : decide (n ≤ nameAt e n t) = true := by
      rw [nameAt_of_get e n t htlen, hget, hname]
      simp
    have htr : r ≤ t := by
      by_contra hcon
      push_neg at hcon
      have hcontra := h3 t (Nat.zero_le t) hcon
      rw [hft] at hcontra
      exact Bool.noConfusion hcontra
    have hrlen : r < e.length := lt_of_le_of_lt htr htlen
    have hfr := h4 r (le_refl r) hrlen
    rw [decide_eq_true_iff, nameAt_of_get e n r hrlen] at hfr
    have hrn : (e.get ⟨r, hrlen⟩).name ≤ n := by
      rcases Nat.eq_or_lt_of_le htr with heq | hlt
      · rw [show (⟨r, hrlen⟩ : Fin e.length) = ⟨t, htlen⟩ from Fin.ext heq, hget, hname]
      · calc (e.get ⟨r, hrlen⟩).name
            ≤ (e.get ⟨t, htlen⟩).name :=
              List.pairwise_iff_get.mp hs ⟨r, hrlen⟩ ⟨t, htlen⟩ hlt
          _ = n := by rw [hget, hname]
    have heqn : (e.get ⟨r, hrlen⟩).name = n := le_antisymm hrn hfr
    refine ⟨e.get ⟨r, hrlen⟩, ?_, heqn⟩
    rw [hfind, List.get?_eq_get hrlen]
    have heqn2 : e[r].name = n := heqn
    simp [heqn2]
  · intro hnone
    by_cases hrlen : r < e.length
    · rw [hfind, List.get?_eq_get hrlen]
      have hne : (e.get ⟨r, hrlen⟩).name ≠ n := hnone _ (e.get_mem r hrlen)
      have hne2 : ¬ e[r].name = n := hne
      simp [hne2]
    · rw [hfind, List.get?_eq_none.mpr (by omega)]

/-- C10 witness: on a concrete sorted list, a present name is found and an
absent name yields nil. -/
theorem claim_C10_witness :
    (∃ ent, FindByName [⟨[1], 0⟩, ⟨[2], 1⟩] [2] = some ent ∧ ent.name = [2]) ∧
    FindByName [⟨[1], 0⟩, ⟨[2], 1⟩] [7] = none :=
  ⟨(claim_C10 [⟨[1], 0⟩, ⟨[2], 1⟩] [2] (by decide)).1 ⟨⟨[2], 1⟩, by decide, rfl⟩,
   (claim_C10 [⟨[1], 0⟩, ⟨[2], 1⟩] [7] (by decide)).2 (by decide)⟩

/-! Verification of the dangling-pack scan (claims C1, C2, C3). -/

theorem missingPackThreshold_eq : missingPackThreshold = 1000 := rfl

theorem missingSeq_nil (P : List String) : missingSeq P [] = [] := rfl

theorem missingSeq_cons_present (P : List String) (ci : Info) (rest : List Info)
    (h : ci.packBlobID ∈ P) : missingSeq P (ci :: rest) = missingSeq P rest := by
  simp [missingSeq, List.filter_cons, h]

theorem missingSeq_cons_missing (P : List String) (ci : Info) (rest : List Info)
    (h : ci.packBlobID ∉ P) :
    missingSeq P (ci :: rest) = ci.packBlobID :: missingSeq P rest := by
  simp [missingSeq, List.filter_cons, h]

theorem toFinset_card_append_singleton (l : List String) (p : String) :
    (l ++ [p]).toFinset.card = l.toFinset.card + (if p ∈ l then 0 else 1) := by
  rw [List.toFinset_append]
  have h1 : (([p] : List String)).toFinset = {p} := by simp
  rw [h1]
  by_cases h : p ∈ l
  · rw [if_pos h]
    have h2 : l.toFinset ∪ {p} = l.toFinset :=
      Finset.union_eq_left.mpr (by simp [h])
    rw [h2]
    omega
  · rw [if_neg h]
    have h2 : l.toFinset ∪ {p} = insert p l.toFinset := by
      rw [Finset.union_comm]
      simp [Finset.insert_eq]
    rw [h2, Finset.card_insert_of_not_mem (by simp [h])]

theorem count_append_singleton_self (l : List String) (p : String) :
    (l ++ [p]).count p = l.count p + 1 := by
  simp

theorem count_append_singleton_ne (l : List String) (p k : String) (h : k ≠ p) :
    (l ++ [p]).count k = l.count k := by
  simp [h]

theorem cItCb_present (P : List String) (st : VState) (ci : Info)
    (h : ci.packBlobID ∈ P) : cItCb P st ci = (st, false) := by
  simp [cItCb, h]

theorem cItCb_missing_seen (P : List String) (st : VState) (ci : Info)
    (h : ci.packBlobID ∉ P) (c : Nat)
    (hl : alookup st.missingPacks ci.packBlobID = some c) :
    cItCb P st ci =
      ({ st with missingPacks := aset st.missingPacks ci.packBlobID ((c + 1) % u32) },
        false) := by
  simp [cItCb, h, CountersMap.Increment, CountersMap.Add, hl]

theorem cItCb_missing_fresh (P : List String) (st : VState) (ci : Info)
    (h : ci.packBlobID ∉ P)
    (hl : alookup st.missingPacks ci.packBlobID = none) :
    cItCb P st ci =
      ({ missingPackCount := (st.missingPackCount + 1) % u32,
         missingPacks := st.missingPacks ++ [(ci.packBlobID, (0 + 1) % u32)] },
        decide ((st.missingPackCount + 1) % u32 > missingPackThreshold)) := by
  simp [cItCb, h, CountersMap.Increment, CountersMap.Add, hl]

theorem iterateContents_cons_continue (P : List String) (ci : Info) (rest : List Info)
    (st st1 : VState) (h : cItCb P st ci = (st1, false)) :
    iterateContents P (ci :: rest) st = iterateContents P rest st1 := by
  simp [iterateContents, h]

theorem iterateContents_cons_stop (P : List String) (ci : Info) (rest : List Info)
    (st st1 : VState) (h : cItCb P st ci = (st1, true)) :
    iterateContents P (ci :: rest) st = (st1, true) := by
  simp [iterateContents, h]

theorem models_init : Models initVState [] :=
  ⟨by simp [initVState], [], by simp, by simp, by simp [initVState]⟩

theorem models_lookup {st : VState} {seen : List String} (h : Models st seen) (p : String) :
    alookup st.missingPacks p = if p ∈ seen then some (seen.count p % u32) else none := by
  obtain ⟨hc, ks, hnd, hks, hmap⟩ := h
  rw [hmap, alookup_keyed]
  by_cases hp : p ∈ seen
  · rw [if_pos ((hks p).mpr hp), if_pos hp]
  · rw [if_neg (fun hh => hp ((hks p).mp hh)), if_neg hp]

theorem models_step_seen {st : VState} {seen : List String} (h : Models st seen)
    {p : String} (hp : p ∈ seen) :
    Models { st with missingPacks := aset st.missingPacks p ((seen.count p % u32 + 1) % u32) }
      (seen ++ [p]) := by
  obtain ⟨hc, ks, hnd, hks, hmap⟩ := h
  refine ⟨?_, ks, hnd, ?_, ?_⟩
  · simp only
    rw [hc, toFinset_card_append_singleton, if_pos hp]
    omega
  · intro k
    rw [hks]
    simp only [List.mem_append, List.mem_singleton]
    constructor
    · exact fun hh => Or.inl hh
    · rintro (hh | rfl)
      · exact hh
      · exact hp
  · simp only
    rw [hmap, aset_keyed ks _ p _ hnd]
    apply List.map_congr_left
    intro k hk
    by_cases hkp : k = p
    · subst hkp
      simp [count_append_singleton_self, Nat.mod_add_mod]
    · simp [hkp, count_append_singleton_ne seen p k hkp]

theorem models_step_fresh {st : VState} {seen : List String} (h : Models st seen)
    {p : String} (hp : p ∉ seen)
    (hsmall : seen.toFinset.card ≤ missingPackThreshold) :
    Models { missingPackCount := (st.missingPackCount + 1) % u32,
             missingPacks := st.missingPacks ++ [(p, (0 + 1) % u32)] }
      (seen ++ [p]) := by
  obtain ⟨hc, ks, hnd, hks, hmap⟩ := h
  have hpks : p ∉ ks := fun hh => hp ((hks p).mp hh)
  refine ⟨?_, ks ++ [p], ?_, ?_, ?_⟩
  · simp only
    rw [hc, toFinset_card_append_singleton, if_neg hp, Nat.mod_eq_of_lt]
    rw [u32_eq]
    rw [missingPackThreshold_eq] at hsmall
    omega
  · simp [List.nodup_append, hnd, hpks]
  · intro k
    simp [List.mem_append, hks k]
  · simp only
    rw [hmap]
    have hrhs : (ks ++ [p]).map (fun k => (k, (seen ++ [p]).count k % u32)) =
        ks.map (fun k => (k, seen.count k % u32)) ++ [(p, (0 + 1) % u32)] := by
      rw [List.map_append]
      congr 1
      · apply List.map_congr_left
        intro k hk
        have hkp : k ≠ p := fun hh => hpks (hh ▸ hk)
        rw [count_append_singleton_ne seen p k hkp]
      · simp [count_append_singleton_self, List.count_eq_zero.mpr hp]
    rw [hrhs]

theorem models_report {st : VState} {seen : List String} (h : Models st seen) :
    rangeReport st.missingPacks =
      { packCount := seen.toFinset.card,
        danglingContentCount := ∑ p in seen.toFinset, seen.count p % u32 } := by
  obtain ⟨hc, ks, hnd, hks, hmap⟩ := h
  have hksf : ks.toFinset = seen.toFinset := by
    ext x
    simp [List.mem_toFinset, hks x]
  have hlen : st.missingPacks.length = seen.toFinset.card := by
    rw [hmap, List.length_map, ← List.toFinset_card_of_nodup hnd, hksf]
  have hsum : (st.missingPacks.map Prod.snd).sum = ∑ p in seen.toFinset, seen.count p % u32 := by
    rw [hmap, List.map_map, ← hksf, List.sum_toFinset _ hnd]
    rfl
  simp [rangeReport, hlen, hsum]

/-- Main invariant of the iteration: starting from an accumulator modelling
an already-processed missing sequence that is within the threshold, the
iteration either finishes (no stop) with an accumulator modelling the full
missing sequence — when its number of distinct packs stays within the
threshold — or stops with the errTooManyMissingPacks signal — when the
distinct count exceeds the threshold. -/
theorem iterate_spec (P : List String) :
    ∀ (entries : List Info) (seen : List String) (st : VState),
      Models st seen → seen.toFinset.card ≤ missingPackThreshold →
      (((seen ++ missingSeq P entries).toFinset.card ≤ missingPackThreshold →
          ∃ st1, iterateContents P entries st = (st1, false) ∧
            Models st1 (seen ++ missingSeq P entries)) ∧
        (missingPackThreshold < (seen ++ missingSeq P entries).toFinset.card →
          ∃ st1, iterateContents P entries st = (st1, true))) := by
  intro entries
  induction entries with
  | nil =>
    intro seen st hM hc
    constructor
    · intro _
      refine ⟨st, by simp [iterateContents], ?_⟩
      simpa [missingSeq_nil] using hM
    · intro hgt
      rw [missingSeq_nil] at hgt
      simp at hgt
      omega
  | cons ci rest ih =>
    intro seen st hM hc
    by_cases hp : ci.packBlobID ∈ P
    · have hit := iterateContents_cons_continue P ci rest st st (cItCb_present P st ci hp)
      rw [missingSeq_cons_present P ci rest hp, hit]
      exact ih seen st hM hc
    · have hms := missingSeq_cons_missing P ci rest hp
      have hlook := models_lookup hM ci.packBlobID
      by_cases hseen : ci.packBlobID ∈ seen
      · rw [if_pos hseen] at hlook
        have hcb := cItCb_missing_seen P st ci hp _ hlook
        have hit := iterateContents_cons_continue P ci rest st _ hcb
        have hM1 := models_step_seen hM hseen
        have hc1 : (seen ++ [ci.packBlobID]).toFinset.card ≤ missingPackThreshold := by
          rw [toFinset_card_append_singleton, if_pos hseen]
          omega
        have hres := ih (seen ++ [ci.packBlobID]) _ hM1 hc1
        rw [hms, hit,
          show seen ++ ci.packBlobID :: missingSeq P rest =
            (seen ++ [ci.packBlobID]) ++ missingSeq P rest by simp]
        exact hres
      · rw [if_neg hseen] at hlook
        have hcb := cItCb_missing_fresh P st ci hp hlook
        have hcount : st.missingPackCount = seen.toFinset.card := hM.1
        have hmod : (st.missingPackCount + 1) % u32 = seen.toFinset.card + 1 := by
          rw [hcount, Nat.mod_eq_of_lt]
          rw [u32_eq]
          rw [missingPackThreshold_eq] at hc
          omega
        have hcard1 : (seen ++ [ci.packBlobID]).toFinset.card = seen.toFinset.card + 1 := by
          rw [toFinset_card_append_singleton, if_neg hseen]
        by_cases hthr : seen.toFinset.card + 1 ≤ missingPackThreshold
        · have hdec : decide ((st.missingPackCount + 1) % u32 > missingPackThreshold) = false := by
            rw [hmod, decide_eq_false_iff_not]
            omega
          rw [hdec] at hcb
          have hit := iterateContents_cons_continue P ci rest st _ hcb
          have hM1 := models_step_fresh hM hseen hc
          have hc1 : (seen ++ [ci.packBlobID]).toFinset.card ≤ missingPackThreshold := by
            rw [hcard1]
            omega
          have hres := ih (seen ++ [ci.packBlobID]) _ hM1 hc1
          rw [hms, hit,
            show seen ++ ci.packBlobID :: missingSeq P rest =
              (seen ++ [ci.packBlobID]) ++ missingSeq P rest by simp]
          exact hres
        · have hdec : decide ((st.missingPackCount + 1) % u32 > missingPackThreshold) = true := by
            rw [hmod, decide_eq_true_iff]
            omega
          rw [hdec] at hcb
          have hit := iterateContents_cons_stop P ci rest st _ hcb
          have hsub : (seen ++ [ci.packBlobID]).toFinset ⊆
              (seen ++ ci.packBlobID :: missingSeq P rest).toFinset := by
            intro x hx
            simp only [List.mem_toFinset, List.mem_append, List.mem_singleton,
              List.mem_cons] at hx ⊢
            tauto
          have hbig : missingPackThreshold <
              (seen ++ ci.packBlobID :: missingSeq P rest).toFinset.card := by
            have h2 := Finset.card_le_card hsub
            rw [hcard1] at h2
            omega
          rw [hms]
          constructor
          · intro hle
            exfalso
            omega
          · intro _
            exact ⟨_, hit⟩

/-- iterate_spec instantiated at the initial accumulator. -/
theorem vctpm_iterate (P : List String) (entries : List Info) :
    (((missingSeq P entries).toFinset.card ≤ missingPackThreshold →
        ∃ st1, iterateContents P entries initVState = (st1, false) ∧
          Models st1 (missingSeq P entries)) ∧
      (missingPackThreshold < (missingSeq P entries).toFinset.card →
        ∃ st1, iterateContents P entries initVState = (st1, true))) := by
  have h := iterate_spec P entries [] initVState models_init
    (by rw [missingPackThreshold_eq]; simp)
  simpa using h

theorem vctpm_of_iterate_false {P : List String} {entries : List Info} {st1 : VState}
    (hit : iterateContents P entries initVState = (st1, false)) :
    VerifyContentToPackMapping P entries =
      match verifyNoMissingPacks st1.missingPackCount st1.missingPacks with
      | some r => .missingPacks r.packCount r.danglingContentCount
      | none => .ok := by
  simp [VerifyContentToPackMapping, hit]

theorem vctpm_of_iterate_true {P : List String} {entries : List Info} {st1 : VState}
    (hit : iterateContents P entries initVState = (st1, true)) :
    VerifyContentToPackMapping P entries =
      .tooManyMissingPacks (rangeReport st1.missingPacks).packCount
        (rangeReport st1.missingPacks).danglingContentCount := by
  simp [VerifyContentToPackMapping, hit]

/-- Outcome of the scan when the number of distinct missing packs stays
within the threshold: success for an empty missing sequence, otherwise the
errMissingPacks report with the exact distinct count and the per-pack
counter sum. -/
theorem vctpm_le_threshold (P : List String) (entries : List Info)
    (h : (missingSeq P entries).toFinset.card ≤ missingPackThreshold) :
    (missingSeq P entries = [] → VerifyContentToPackMapping P entries = .ok) ∧
    (missingSeq P entries ≠ [] →
      VerifyContentToPackMapping P entries =
        .missingPacks (missingSeq P entries).toFinset.card
          (∑ p in (missingSeq P entries).toFinset, (missingSeq P entries).count p % u32)) := by
  obtain ⟨st1, hit, hM1⟩ := (vctpm_iterate P entries).1 h
  have hcnt : st1.missingPackCount = (missingSeq P entries).toFinset.card := hM1.1
  have hout := vctpm_of_iterate_false hit
  constructor
  · intro hnil
    rw [hout, verifyNoMissingPacks, if_pos]
    rw [hcnt, hnil]
    simp
  · intro hne
    have hpos : st1.missingPackCount ≠ 0 := by
      rw [hcnt]
      intro hzero
      exact hne ((List.toFinset_eq_empty_iff _).mp (Finset.card_eq_zero.mp hzero))
    rw [hout, verifyNoMissingPacks, if_neg hpos, models_report hM1]

/-- C1: VerifyContentToPackMapping succeeds exactly when every index entry
(deleted ones included) references a pack blob present in the listed pack
set; with at least one dangling entry and a distinct-missing count within
the threshold it returns the MissingPacks error. -/
theorem claim_C1 (P : List String) (entries : List Info) :
    (VerifyContentToPackMapping P entries = .ok ↔
      ∀ ci ∈ entries, ci.packBlobID ∈ P) ∧
    ((∃ ci ∈ entries, ci.packBlobID ∉ P) →
      (missingSeq P entries).toFinset.card ≤ missingPackThreshold →
      ∃ pc dc, VerifyContentToPackMapping P entries = .missingPacks pc dc) := by
  have hnil : missingSeq P entries = [] ↔ ∀ ci ∈ entries, ci.packBlobID ∈ P := by
    simp [missingSeq]
  constructor
  · constructor
    · intro hok
      by_contra hcon
      have hne : missingSeq P entries ≠ [] := fun hh => hcon (hnil.mp hh)
      by_cases hcard : (missingSeq P entries).toFinset.card ≤ missingPackThreshold
      · have := (vctpm_le_threshold P entries hcard).2 hne
        rw [this] at hok
        exact VerifyOutcome.noConfusion hok
      · obtain ⟨st1, hit⟩ := (vctpm_iterate P entries).2 (by omega)
        have := vctpm_of_iterate_true hit
        rw [this] at hok
        exact VerifyOutcome.noConfusion hok
    · intro hall
      have hcard : (missingSeq P entries).toFinset.card ≤ missingPackThreshold := by
        rw [hnil.mpr hall]
        rw [missingPackThreshold_eq]
        simp
      exact (vctpm_le_threshold P entries hcard).1 (hnil.mpr hall)
  · intro hex hcard
    have hne : missingSeq P entries ≠ [] := by
      intro hh
      obtain ⟨ci, hmem, hmiss⟩ := hex
      exact hmiss (hnil.mp hh ci hmem)
    exact ⟨_, _, (vctpm_le_threshold P entries hcard).2 hne⟩

/-- C1 witness: one dangling entry yields the MissingPacks error and a
clean repository verifies successfully. -/
theorem claim_C1_witness :
    VerifyContentToPackMapping ["p1"] [{ contentID := "c1", packBlobID := "p1" }] = .ok ∧
    (∃ pc dc, VerifyContentToPackMapping ["p1"] [{ contentID := "c2", packBlobID := "p2" }] =
      .missingPacks pc dc) :=
  ⟨(claim_C1 ["p1"] [{ contentID := "c1", packBlobID := "p1" }]).1.mpr (by decide),
   (claim_C1 ["p1"] [{ contentID := "c2", packBlobID := "p2" }]).2
     ⟨{ contentID := "c2", packBlobID := "p2" }, by decide, by decide⟩ (by decide)⟩

/-- C2 amended: with k distinct missing packs, 1 ≤ k ≤ threshold, the scan
reports exactly k unique missing packs (each missing pack counted once, on
its first dangling entry) and, for each missing pack, a per-pack counter
equal to the number of index entries referencing it reduced modulo 2^32
(the counter is 32-bit), so the reported dangling-content sum is the sum of
those reduced counters — exact whenever every per-pack reference count is
below 2^32. -/
theorem claim_C2 (P : List String) (entries : List Info)
    (h1 : 1 ≤ (missingSeq P entries).toFinset.card)
    (h2 : (missingSeq P entries).toFinset.card ≤ missingPackThreshold) :
    VerifyContentToPackMapping P entries =
      .missingPacks (missingSeq P entries).toFinset.card
        (∑ p in (missingSeq P entries).toFinset, (missingSeq P entries).count p % u32) ∧
    ∃ st1, iterateContents P entries initVState = (st1, false) ∧
      st1.missingPackCount = (missingSeq P entries).toFinset.card ∧
      ∀ p, alookup st1.missingPacks p =
        if p ∈ missingSeq P entries then some ((missingSeq P entries).count p % u32)
        else none := by
  obtain ⟨st1, hit, hM1⟩ := (vctpm_iterate P entries).1 h2
  have hne : missingSeq P entries ≠ [] := by
    intro hh
    rw [hh] at h1
    simp at h1
  refine ⟨(vctpm_le_threshold P entries h2).2 hne, st1, hit, hM1.1, fun p => models_lookup hM1 p⟩

/-- C2 witness: two entries referencing one missing pack report one unique
missing pack with a per-pack counter of two. -/
theorem claim_C2_witness :
    VerifyContentToPackMapping [] [ci0, ci0] = .missingPacks 1 2 ∧
    ∃ st1, iterateContents [] [ci0, ci0] initVState = (st1, false) ∧
      st1.missingPackCount = 1 ∧ alookup st1.missingPacks ("p0") = some 2 := by
  have h := claim_C2 [] [ci0, ci0] (by decide) (by decide)
  obtain ⟨hout, st1, hit, hcnt, hlook⟩ := h
  refine ⟨?_, st1, hit, ?_, ?_⟩
  · rw [hout]
    decide
  · rw [hcnt]
    decide
  · rw [hlook ("p0")]
    decide

/-- C2 counterexample: with 2^32 index entries all referencing the same
single missing pack, the 32-bit per-pack counter wraps to 0, so the
reported dangling-content sum is 0 while the number of dangling index
entries is 2^32 — the reported sum is not exact as the claim states. -/
theorem claim_C2_counterexample :
    VerifyContentToPackMapping [] (List.replicate u32 ci0) = .missingPacks 1 0 ∧
    (missingSeq [] (List.replicate u32 ci0)).length = u32 ∧ (0 : Nat) ≠ u32 := by
  have hms : missingSeq [] (List.replicate u32 ci0) = List.replicate u32 ("p0") := by
    simp [missingSeq, ci0, List.filter_eq_self]
  have hu : u32 ≠ 0 := by rw [u32_eq]; omega
  have hfin : (List.replicate u32 ("p0")).toFinset = {"p0"} :=
    List.toFinset_replicate_of_ne_zero hu
  have hcard : (missingSeq [] (List.replicate u32 ci0)).toFinset.card = 1 := by
    rw [hms, hfin]
    simp
  have hth : (missingSeq [] (List.replicate u32 ci0)).toFinset.card ≤ missingPackThreshold := by
    rw [hcard, missingPackThreshold_eq]
    omega
  have hne : missingSeq [] (List.replicate u32 ci0) ≠ [] := by
    rw [hms]
    intro hh
    have := congrArg List.length hh
    simp [hu] at this
  have hout := (vctpm_le_threshold [] (List.replicate u32 ci0) hth).2 hne
  have hsum : (∑ p in (missingSeq [] (List.replicate u32 ci0)).toFinset,
      (missingSeq [] (List.replicate u32 ci0)).count p % u32) = 0 := by
    rw [hms, hfin, Finset.sum_singleton, List.count_replicate_self, Nat.mod_self]
  refine ⟨?_, ?_, by rw [u32_eq]; omega⟩
  · rw [hout, hcard, hsum]
  · rw [hms, List.length_replicate]

/-- C3: VerifyContentToPackMapping terminates with an error containing
TooManyMissingPacks exactly when the number of distinct missing packs
exceeds the threshold of 1000; with at most 1000 distinct missing packs it
never returns TooManyMissingPacks. -/
theorem claim_C3 (P : List String) (entries : List Info) :
    (∃ pc dc, VerifyContentToPackMapping P entries = .tooManyMissingPacks pc dc) ↔
      missingPackThreshold < (missingSeq P entries).toFinset.card := by
  constructor
  · rintro ⟨pc, dc, hout⟩
    by_contra hcon
    push_neg at hcon
    by_cases hnil : missingSeq P entries = []
    · have := (vctpm_le_threshold P entries hcon).1 hnil
      rw [this] at hout
      exact VerifyOutcome.noConfusion hout
    · have := (vctpm_le_threshold P entries hcon).2 hnil
      rw [this] at hout
      exact VerifyOutcome.noConfusion hout
  · intro hbig
    obtain ⟨st1, hit⟩ := (vctpm_iterate P entries).2 hbig
    exact ⟨_, _, vctpm_of_iterate_true hit⟩

/-- C3 witness: with a single missing pack the scan does not report
TooManyMissingPacks. -/
theorem claim_C3_witness :
    ¬ ∃ pc dc, VerifyContentToPackMapping ["p1"] [{ contentID := "c2", packBlobID := "p2" }] =
      .tooManyMissingPacks pc dc := by
  rw [claim_C3]
  decide

end KopiaModel
